import Mathlib

/-!
Shallow embedding of the llmsdl downloader (src/parser.rs, src/file_manager.rs,
src/http_client.rs, src/error.rs, src/main.rs).

Rust strings are modelled as lists of Unicode scalar values (`Str`).  The
`url` crate is modelled by the `Url` structure together with `Url.parse`,
`Url.toString` and `Url.join`, covering the fragment of WHATWG URL behaviour
exercised by this program: scheme and host lower-casing, default-port
elision, serialisation of an empty path of a special scheme as "/", and
path merging for relative references.  Characters that the real crate would
percent-encode (spaces, non-ASCII, ...) are rejected by the model parser
instead of being encoded, and user-info / IPv6 hosts are outside the model;
this restricts the model to the URL fragment the program's claims exercise.

Panicking code returns `Option` (`none` = panic), filesystem effects are
returned as explicit `FsOp` lists, and the HTTP transport is modelled as the
list of per-attempt answers it would give.
-/

/-- A Rust `String` / `&str`, as its sequence of `char`s. -/
abbrev Str := List Char

/-! ### Character classes (all via code points, mirroring Rust `char` tests) -/

def isAsciiUpper (c : Char) : Bool := 65 ≤ c.toNat && c.toNat ≤ 90

def isAsciiLower (c : Char) : Bool := 97 ≤ c.toNat && c.toNat ≤ 122

def isAsciiDigit (c : Char) : Bool := 48 ≤ c.toNat && c.toNat ≤ 57

def toLowerChar (c : Char) : Char :=
  if isAsciiUpper c then Char.ofNat (c.toNat + 32) else c

def lowerStr (s : Str) : Str := s.map toLowerChar

/-- Characters allowed in a URL scheme (RFC 3986 / WHATWG). -/
def isSchemeChar (c : Char) : Bool :=
  isAsciiUpper c || isAsciiLower c || isAsciiDigit c ||
  c.toNat = 43 || c.toNat = 45 || c.toNat = 46

def isLowerSchemeChar (c : Char) : Bool :=
  isAsciiLower c || isAsciiDigit c || c.toNat = 43 || c.toNat = 45 || c.toNat = 46

/-- A normalised (lower-cased) scheme: nonempty, letter first. -/
def schemeOk (s : Str) : Bool :=
  match s with
  | [] => false
  | c :: cs => isAsciiLower c && cs.all isLowerSchemeChar

/-- Characters the model accepts in a (lower-cased) registrable host name. -/
def isHostChar (c : Char) : Bool :=
  isAsciiLower c || isAsciiDigit c || c.toNat = 45 || c.toNat = 46 || c.toNat = 95

/-- Path characters: RFC 3986 `pchar` plus `/` and `%` (codepoint tests). -/
def isPathChar (c : Char) : Bool :=
  isAsciiUpper c || isAsciiLower c || isAsciiDigit c ||
  c.toNat = 45 || c.toNat = 46 || c.toNat = 95 || c.toNat = 126 ||
  c.toNat = 33 || c.toNat = 36 || c.toNat = 38 || c.toNat = 39 ||
  c.toNat = 40 || c.toNat = 41 || c.toNat = 42 || c.toNat = 43 ||
  c.toNat = 44 || c.toNat = 59 || c.toNat = 61 || c.toNat = 58 ||
  c.toNat = 64 || c.toNat = 47 || c.toNat = 37

def isQueryChar (c : Char) : Bool := isPathChar c || c.toNat = 63

def isFragChar (c : Char) : Bool := isQueryChar c

/-- Rust `char::is_whitespace` (Unicode `White_Space`). -/
def isRustWhitespace (c : Char) : Bool :=
  (9 ≤ c.toNat && c.toNat ≤ 13) || c.toNat = 32 || c.toNat = 133 ||
  c.toNat = 160 || c.toNat = 0x1680 ||
  (0x2000 ≤ c.toNat && c.toNat ≤ 0x200A) ||
  c.toNat = 0x2028 || c.toNat = 0x2029 || c.toNat = 0x202F ||
  c.toNat = 0x205F || c.toNat = 0x3000

/-! ### List / string helpers mirroring the Rust `str` API -/

/-- Rust `str::trim_matches`-style two-sided trim. -/
def trimMatchesBy (p : Char → Bool) (s : Str) : Str :=
  ((s.dropWhile p).reverse.dropWhile p).reverse

/-- Rust `str::trim`. -/
def rustTrim (s : Str) : Str := trimMatchesBy isRustWhitespace s

/-- Rust `str::split(sep)`: always at least one (possibly empty) piece. -/
def splitChar (sep : Char) : Str → List Str
  | [] => [[]]
  | c :: cs =>
    if c = sep then [] :: splitChar sep cs
    else
      match splitChar sep cs with
      | [] => [[c]]
      | s :: ss => (c :: s) :: ss

def stripCR (l : Str) : Str :=
  if l.getLast? = some '\r' then l.dropLast else l

def mapAllButLast (f : Str → Str) : List Str → List Str
  | [] => []
  | [a] => [a]
  | a :: b :: rest => f a :: mapAllButLast f (b :: rest)

/-- Rust `str::lines`: split on `\n`, strip a `\r` before each `\n`,
no trailing empty line when the text ends in `\n`. -/
def rustLines (s : Str) : List Str :=
  if s = [] then []
  else if s.getLast? = some '\n' then ((splitChar '\n' s).dropLast).map stripCR
  else mapAllButLast stripCR (splitChar '\n' s)

/-- Rust `str::find(pattern)` (index of first substring occurrence). -/
def findSubstr (pat : Str) : Str → Option Nat
  | [] => if pat.isEmpty then some 0 else none
  | c :: cs =>
    if pat.isPrefixOf (c :: cs) then some 0
    else (findSubstr pat cs).map (fun n => n + 1)

def startsWithChar (c : Char) (s : Str) : Bool :=
  match s with
  | d :: _ => decide (d = c)
  | [] => false

def containsSub (hay pat : Str) : Bool := (findSubstr pat hay).isSome

/-! ### Decimal digits (for URL ports) -/

def digitVal (c : Char) : Nat := c.toNat - 48

def digitsToNat (ds : Str) : Nat := Nat.ofDigits 10 ((ds.map digitVal).reverse)

def natToDigits (n : Nat) : Str :=
  if n = 0 then [Char.ofNat 48]
  else ((Nat.digits 10 n).map (fun d => Char.ofNat (48 + d))).reverse

/-! ### The error enum (src/error.rs, `DownloadError`).
Message payloads are abstracted to the offending string; the `reqwest` /
`std::io` error objects carry no information the claims use. -/

inductive DownloadError where
  | networkError
  | ioError
  | invalidUrl (msg : Str)
  | parseError (msg : Str)
  | httpError (status : Nat) (url : Str)
  | fileNotFound (url : Str)
  | timeout (url : Str)
deriving DecidableEq, Repr

/-! ### The `url` crate model -/

structure Url where
  scheme : Str
  host : Option Str
  port : Option Nat
  path : Str
  query : Option Str
  fragment : Option Str
deriving DecidableEq, Repr

def specialScheme (s : Str) : Bool :=
  decide (s = "http".data) || decide (s = "https".data) || decide (s = "ws".data) ||
  decide (s = "wss".data) || decide (s = "ftp".data)

def defaultPort (s : Str) : Option Nat :=
  if s = "http".data ∨ s = "ws".data then some 80
  else if s = "https".data ∨ s = "wss".data then some 443
  else if s = "ftp".data then some 21
  else none

def optAll (p : Char → Bool) : Option Str → Bool
  | none => true
  | some s => s.all p

/-- Serialisation of an optional port. -/
def portStr : Option Nat → Str
  | none => []
  | some p => ':' :: natToDigits p

/-- Serialisation of an optional query. -/
def optQStr : Option Str → Str
  | none => []
  | some q => '?' :: q

/-- Serialisation of an optional fragment. -/
def optFStr : Option Str → Str
  | none => []
  | some f => '#' :: f

/-- `Url::to_string` / `as_str` — the crate's serialisation. -/
def Url.toString (u : Url) : Str :=
  u.scheme ++ ':' ::
    ((match u.host with
      | some h => '/' :: '/' :: (h ++ portStr u.port)
      | none => []) ++
     u.path ++ optQStr u.query ++ optFStr u.fragment)

def notQH (c : Char) : Bool := !(decide (c = '?')) && !(decide (c = '#'))

def notHash (c : Char) : Bool := !(decide (c = '#'))

def notAuthEnd (c : Char) : Bool :=
  !(decide (c = '/')) && !(decide (c = '?')) && !(decide (c = '#'))

def notColon (c : Char) : Bool := !(decide (c = ':'))

/-- Split `path[?query][#fragment]`. -/
def splitPQF (s : Str) : Str × Option Str × Option Str :=
  let path := s.takeWhile notQH
  match s.dropWhile notQH with
  | '?' :: r2 =>
    (path, some (r2.takeWhile notHash),
      match r2.dropWhile notHash with
      | _ :: f => some f
      | [] => none)
  | '#' :: f => (path, none, some f)
  | _ => (path, none, none)

/-- Parse `[:port]` of an authority; outer `none` = parse failure,
inner `none` = no (or default) port. -/
def parsePort (scheme : Str) (portStr : Str) : Option (Option Nat) :=
  match portStr with
  | [] => some none
  | _ :: ds =>
    if ds = [] then some none
    else if ds.all isAsciiDigit then
      let n := digitsToNat ds
      if n < 65536 then some (if defaultPort scheme = some n then none else some n)
      else none
    else none

def pathNoAuthOk (p : Str) : Bool :=
  match p with
  | '/' :: '/' :: _ => false
  | _ => true

/-- Parse `host[:port]path[?q][#f]` after `scheme://`. -/
def parseAfterAuthority (scheme : Str) (rest2 : Str) : Option Url :=
  let auth := rest2.takeWhile notAuthEnd
  let rest3 := rest2.dropWhile notAuthEnd
  let host := lowerStr (auth.takeWhile notColon)
  if host = [] then none
  else if !(host.all isHostChar) then none
  else
    match parsePort scheme (auth.dropWhile notColon) with
    | none => none
    | some port =>
      match splitPQF rest3 with
      | (path0, q, f) =>
        let path := if path0 = [] && specialScheme scheme then ['/'] else path0
        if path.all isPathChar && optAll isQueryChar q && optAll isFragChar f then
          some ⟨scheme, some host, port, path, q, f⟩
        else none

/-- What follows `scheme:` in an absolute URL: an authority, or an
opaque / path-absolute remainder (non-special schemes only). -/
def parseRest (scheme : Str) (rest : Str) : Option Url :=
  match rest with
  | '/' :: '/' :: rest2 => parseAfterAuthority scheme rest2
  | _ =>
    if specialScheme scheme then none
    else
      match splitPQF rest with
      | (p, q, f) =>
        if pathNoAuthOk p && p.all isPathChar &&
           optAll isQueryChar q && optAll isFragChar f then
          some ⟨scheme, none, none, p, q, f⟩
        else none

/-- `Url::parse` (model).  Fails (`none`) on relative references and on
inputs outside the modelled URL fragment. -/
def Url.parse (s : Str) : Option Url :=
  match s.dropWhile isSchemeChar with
  | ':' :: rest =>
    let scheme := lowerStr (s.takeWhile isSchemeChar)
    if !(schemeOk scheme) then none else parseRest scheme rest
  | _ => none

/-- The directory part of a path: everything up to and including the last
`/` (the whole merge base for relative-reference resolution). -/
def dirOfPath (p : Str) : Str :=
  (p.reverse.dropWhile (fun c => !(decide (c = '/')))).reverse

def canBeBase (u : Url) : Bool :=
  u.host.isSome || startsWithChar '/' u.path

/-- `Url::join` (model): resolve a relative reference against a base.
The guards that can only fail on non-well-formed bases are kept as guards. -/
def Url.join (base : Url) (rel : Str) : Option Url :=
  match rel with
  | [] => some { base with fragment := none }
  | '/' :: '/' :: rest2 => parseAfterAuthority base.scheme rest2
  | '/' :: rest =>
    (match splitPQF ('/' :: rest) with
     | (p, q, f) =>
       if p.all isPathChar && pathNoAuthOk p &&
          optAll isQueryChar q && optAll isFragChar f then
         some { base with path := p, query := q, fragment := f }
       else none)
  | '?' :: rest =>
    let q := rest.takeWhile notHash
    let f : Option Str :=
      match rest.dropWhile notHash with
      | _ :: fs => some fs
      | [] => none
    if q.all isQueryChar && optAll isFragChar f then
      some { base with query := some q, fragment := f }
    else none
  | '#' :: rest =>
    if rest.all isFragChar then some { base with fragment := some rest } else none
  | c :: rest =>
    if !(canBeBase base) then none
    else
      let dir :=
        if base.host.isSome && decide (base.path = []) then ['/']
        else dirOfPath base.path
      match splitPQF (c :: rest) with
      | (p0, q, f) =>
        let p := dir ++ p0
        if p.all isPathChar && pathNoAuthOk p &&
           optAll isQueryChar q && optAll isFragChar f then
          some { base with path := p, query := q, fragment := f }
        else none

/-- Well-formedness invariant satisfied by every parse/join result; exactly
the shapes whose serialisation re-parses to the same `Url`. -/
def Url.wf (u : Url) : Bool :=
  schemeOk u.scheme &&
  (match u.host with
   | some h => !(decide (h = [])) && h.all isHostChar &&
       (match u.path with
        | [] => !(specialScheme u.scheme)
        | c :: _ => decide (c = '/'))
   | none => !(specialScheme u.scheme) && u.port.isNone && pathNoAuthOk u.path) &&
  (match u.port with
   | some p => u.host.isSome && decide (p < 65536) && !(decide (defaultPort u.scheme = some p))
   | none => true) &&
  u.path.all isPathChar && optAll isQueryChar u.query && optAll isFragChar u.fragment

/-! ### src/parser.rs -/

/-- `resolve_url` (src/parser.rs:87-98). -/
def resolve_url (path : Str) (base : Url) : Except DownloadError Str :=
  match Url.parse path with
  | some absoluteUrl => .ok (Url.toString absoluteUrl)
  | none =>
    match Url.join base path with
    | some resolved => .ok (Url.toString resolved)
    | none => .error (DownloadError.parseError path)

/-- `extract_file_path` (src/parser.rs:54-74). -/
def extract_file_path (line : Str) : Option Str :=
  let trimmed := rustTrim line
  let mdPath : Option Str :=
    match findSubstr [']', '('] trimmed with
    | some start =>
      match findSubstr [')'] (trimmed.drop (start + 2)) with
      | some stop =>
        let path := (trimmed.drop (start + 2)).take stop
        if path.contains '.' || ['.', 'm', 'd'].isSuffixOf path then some path
        else none
      | none => none
    | none => none
  match mdPath with
  | some p => some p
  | none =>
    if trimmed.contains '.' && !(startsWithChar '-' trimmed) then some trimmed
    else none

/-- The line loop of `parse_llms_txt` (src/parser.rs:23-37). -/
def parseManifestLines (base : Url) : List Str → Except DownloadError (List Str)
  | [] => .ok []
  | line :: rest =>
    let trimmed := rustTrim line
    if trimmed.isEmpty || startsWithChar '#' trimmed then parseManifestLines base rest
    else
      match extract_file_path trimmed with
      | none => parseManifestLines base rest
      | some filePath =>
        match resolve_url filePath base with
        | .error e => .error e
        | .ok u => (parseManifestLines base rest).map (fun us => u :: us)

/-- `parse_llms_txt` (src/parser.rs:16-40). -/
def parse_llms_txt (content : Str) (base_url : Str) : Except DownloadError (List Str) :=
  match Url.parse base_url with
  | none => .error (DownloadError.invalidUrl base_url)
  | some base => parseManifestLines base (rustLines content)

/-! ### src/file_manager.rs -/

/-- Rust `char` UTF-8 encoded size. -/
def utf8Size (c : Char) : Nat :=
  if c.toNat < 128 then 1
  else if c.toNat < 2048 then 2
  else if c.toNat < 65536 then 3
  else 4

def utf8Len (s : Str) : Nat := (s.map utf8Size).sum

/-- Byte-truncation worker: cut after exactly `n` bytes, `none` when `n`
is not a character boundary (Rust `String::truncate` panics there). -/
def truncGo : Str → Nat → Option Str
  | _, 0 => some []
  | [], _ + 1 => some []
  | c :: cs, n + 1 =>
    if utf8Size c ≤ n + 1 then (truncGo cs (n + 1 - utf8Size c)).map (fun t => c :: t)
    else none

/-- Rust `String::truncate(n)`: no-op when `n ≥ len` (in bytes), else cut
at byte `n`; panics (`none`) when byte `n` is not a char boundary. -/
def rustTruncate (s : Str) (n : Nat) : Option Str :=
  if utf8Len s ≤ n then some s else truncGo s n

/-- Rust `char::is_control` (Unicode `Cc`). -/
def isRustControl (c : Char) : Bool :=
  c.toNat < 32 || (127 ≤ c.toNat && c.toNat ≤ 159)

def invalidFileChar (c : Char) : Bool :=
  decide (c = '<') || decide (c = '>') || decide (c = ':') || decide (c = '"') ||
  decide (c = '|') || decide (c = '?') || decide (c = '*') || decide (c = '\\') ||
  decide (c = '/')

def replaceInvalid (c : Char) : Char :=
  if invalidFileChar c || isRustControl c then '_' else c

def isDotOrSpace (c : Char) : Bool := decide (c = '.') || decide (c = ' ')

/-- `sanitize_filename` (src/file_manager.rs:115-152); `none` = panic. -/
def sanitize_filename (filename : Str) : Option Str :=
  let sanitized := filename.map replaceInvalid
  let sanitized := if sanitized = [] then "unnamed".data else sanitized
  let sanitized := trimMatchesBy isDotOrSpace sanitized
  let sanitized := if sanitized = [] then "unnamed".data else sanitized
  rustTruncate sanitized 255

/-- The per-segment sanitization rule exactly as the spec words it
(§4.2): replace, trim, placeholder if empty, truncate to 255 characters. -/
def sanitizeSpec (filename : Str) : Str :=
  let r := filename.map replaceInvalid
  let r := trimMatchesBy isDotOrSpace r
  let r := if r = [] then "unnamed".data else r
  r.take 255

/-- The `.map(sanitize_filename).collect()` over path components, with
panic propagation. -/
def mapMSanitize : List Str → Option (List Str)
  | [] => some []
  | s :: rest =>
    match sanitize_filename s, mapMSanitize rest with
    | some t, some ts => some (t :: ts)
    | _, _ => none

/-- An explicit filesystem effect (paths as segment lists). -/
inductive FsOp where
  | createDirAll (path : List Str)
  | writeFile (path : List Str) (bytes : Nat)
deriving DecidableEq, Repr

/-- `get_local_file_path` (src/file_manager.rs:65-103).  Paths are segment
lists rooted at `base_dir`; the returned `FsOp` list is the filesystem
side effect the function performs itself; outer `none` = panic. -/
def get_local_file_path (url : Str) (base_dir : List Str) :
    Option (Except DownloadError (List Str) × List FsOp) :=
  match Url.parse url with
  | none => some (.error (DownloadError.invalidUrl url), [])
  | some parsedUrl =>
    let url_path := parsedUrl.path
    let clean_path :=
      if startsWithChar '/' url_path then url_path.drop 1 else url_path
    if clean_path = [] ∨ clean_path = ['/'] then
      some (.ok (base_dir ++ ["index.html".data]), [])
    else
      match mapMSanitize ((splitChar '/' clean_path).filter (fun c => !c.isEmpty)) with
      | none => none
      | some path_components =>
        let local_path := base_dir ++ path_components
        some (.ok local_path, [FsOp.createDirAll local_path.dropLast])

/-! ### src/http_client.rs -/

/-- One answer of the HTTP transport for one attempt: a transport-level
error, or a response with a status and a body whose streaming may fail. -/
inductive HttpAttempt where
  | transportError (isTimeout : Bool)
  | response (status : Nat) (bodyOk : Bool) (body : Str)
deriving DecidableEq, Repr

def statusIsSuccess (s : Nat) : Bool := 200 ≤ s && s ≤ 299

def statusIsClientError (s : Nat) : Bool := 400 ≤ s && s ≤ 499

/-- The status `match` in `fetch_content` / `download_file`
(src/http_client.rs:45-51 and 140-146). -/
def classifyStatusError (status : Nat) (url : Str) : DownloadError :=
  if status = 404 then .fileNotFound url
  else if status = 403 then .httpError 403 url
  else if status = 401 then .httpError 401 url
  else if 500 ≤ status && status ≤ 599 then .httpError status url
  else .httpError status url

/-- The retry loop of `fetch_content` (src/http_client.rs:28-82), over the
(remaining) transport answers; returns the result and the number of
attempts actually made. -/
def fetchContentGo (url : Str) :
    List HttpAttempt → Option DownloadError → Except DownloadError Str × Nat
  | [], lastError =>
    (.error (lastError.getD (DownloadError.parseError "Unknown network error".data)), 0)
  | HttpAttempt.response status bodyOk body :: rest, _ =>
    if statusIsSuccess status then
      if bodyOk then (.ok body, 1)
      else
        match fetchContentGo url rest (some DownloadError.networkError) with
        | (r, n) => (r, n + 1)
    else
      let e := classifyStatusError status url
      if statusIsClientError status then (.error e, 1)
      else
        match fetchContentGo url rest (some e) with
        | (r, n) => (r, n + 1)
  | HttpAttempt.transportError isTm :: rest, _ =>
    match fetchContentGo url rest
        (some (if isTm then DownloadError.timeout url else DownloadError.networkError)) with
    | (r, n) => (r, n + 1)

def defaultMaxRetries : Nat := 3

/-- `fetch_content`: the loop runs attempts `0..=max_retries`. -/
def fetchContent (transport : List HttpAttempt) (url : Str) (maxRetries : Nat) :
    Except DownloadError Str × Nat :=
  fetchContentGo url (transport.take (maxRetries + 1)) none

/-- The retry loop of `download_file` (src/http_client.rs:86-177): same
skeleton, returns bytes written and the filesystem effects performed. -/
def download_file_go (url : Str) (localPath : List Str) :
    List HttpAttempt → Option DownloadError → Except DownloadError Nat × Nat × List FsOp
  | [], lastError =>
    (.error (lastError.getD (DownloadError.parseError "Unknown download error".data)), 0, [])
  | HttpAttempt.response status bodyOk body :: rest, _ =>
    if statusIsSuccess status then
      if bodyOk then
        (.ok (utf8Len body), 1,
          [FsOp.createDirAll localPath.dropLast, FsOp.writeFile localPath (utf8Len body)])
      else
        match download_file_go url localPath rest (some DownloadError.networkError) with
        | (r, n, effs) => (r, n + 1, effs)
    else
      let e := classifyStatusError status url
      if statusIsClientError status then (.error e, 1, [])
      else
        match download_file_go url localPath rest (some e) with
        | (r, n, effs) => (r, n + 1, effs)
  | HttpAttempt.transportError isTm :: rest, _ =>
    match download_file_go url localPath rest
        (some (if isTm then DownloadError.timeout url else DownloadError.networkError)) with
    | (r, n, effs) => (r, n + 1, effs)

def download_file (transport : List HttpAttempt) (url : Str) (localPath : List Str)
    (maxRetries : Nat) : Except DownloadError Nat × Nat × List FsOp :=
  download_file_go url localPath (transport.take (maxRetries + 1)) none

/-! ### src/error.rs (`DownloadResult`) -/

/-- `DownloadResult` (src/error.rs:114-126); `start_time` is wall-clock
state with no bearing on any claim and is omitted. -/
structure DownloadResult where
  successful : List (Str × Str)
  failed : List (Str × Str × Str)
  total_files : Nat
  total_bytes : Nat
deriving DecidableEq, Repr

def DownloadResult.new : DownloadResult := ⟨[], [], 0, 0⟩

/-- `categorize_error` (src/error.rs:193-209). -/
def categorize_error (error : Str) : Str :=
  if containsSub error "404".data || containsSub error "not found".data ||
     containsSub error "Not Found".data then "not_found".data
  else if containsSub error "timeout".data || containsSub error "Timeout".data then
    "timeout".data
  else if containsSub error "Permission denied".data || containsSub error "permission".data then
    "permission".data
  else if containsSub error "Network".data || containsSub error "Connection".data then
    "network".data
  else if containsSub error "403".data || containsSub error "Forbidden".data then
    "forbidden".data
  else if containsSub error "500".data || containsSub error "502".data ||
          containsSub error "503".data then "server_error".data
  else "other".data

/-- `add_success` (src/error.rs:141-145). -/
def DownloadResult.add_success (r : DownloadResult) (url local_path : Str) (bytes : Nat) :
    DownloadResult :=
  { r with
    successful := r.successful ++ [(url, local_path)],
    total_files := r.total_files + 1,
    total_bytes := r.total_bytes + bytes }

/-- `add_failure` (src/error.rs:148-152). -/
def DownloadResult.add_failure (r : DownloadResult) (url error : Str) : DownloadResult :=
  { r with
    failed := r.failed ++ [(url, error, categorize_error error)],
    total_files := r.total_files + 1 }

def DownloadResult.success_count (r : DownloadResult) : Nat := r.successful.length

def DownloadResult.failure_count (r : DownloadResult) : Nat := r.failed.length

/-- `all_successful` (src/error.rs:164-167). -/
def DownloadResult.all_successful (r : DownloadResult) : Bool :=
  r.failed.isEmpty && !r.successful.isEmpty

/-! ### src/main.rs (`process_url`, steps 2-3) -/

/-- What `process_url` decides right after parsing the manifest
(src/main.rs:96-101): an empty manifest short-circuits to an `Ok` empty
result, otherwise the url list goes on to the download fan-out. -/
inductive ManifestPhase where
  | emptyRun (result : DownloadResult)
  | download (file_urls : List Str)
deriving DecidableEq, Repr

def process_url_parse_phase (llms_content : Str) (base_url : Str) :
    Except DownloadError ManifestPhase :=
  match parse_llms_txt llms_content base_url with
  | .error e => .error e
  | .ok file_urls =>
    if file_urls.isEmpty then .ok (ManifestPhase.emptyRun DownloadResult.new)
    else .ok (ManifestPhase.download file_urls)

/-- A spec-order restatement of the sanitization rule with truncation
measured in UTF-8 bytes (the unit the code actually uses): replace, trim,
placeholder if empty, truncate at byte 255 (panicking off a boundary). -/
def sanitizeSpecBytes (filename : Str) : Option Str :=
  let r := filename.map replaceInvalid
  let r := trimMatchesBy isDotOrSpace r
  let r := if r = [] then "unnamed".data else r
  rustTruncate r 255

/-! ## Claim theorems -/

/-- Claim C1: with the default retry budget (`max_retries = 3`), a transport
answering 500, 500, 200 makes the fetch succeed with the body (and the
download succeed with the bytes written) after exactly 3 attempts, while a
transport answering 404 fails after exactly 1 attempt with `FileNotFound`
(not a generic HTTP error). -/
theorem fetch_retry_500_500_200_and_404_immediate :
    (fetchContent
        [HttpAttempt.response 500 true [], HttpAttempt.response 500 true [],
         HttpAttempt.response 200 true "body".data]
        "https://x.test/a.md".data defaultMaxRetries
      = (Except.ok "body".data, 3))
    ∧ (fetchContent [HttpAttempt.response 404 true "nf".data]
        "https://x.test/a.md".data defaultMaxRetries
      = (Except.error (DownloadError.fileNotFound "https://x.test/a.md".data), 1))
    ∧ (download_file
        [HttpAttempt.response 500 true [], HttpAttempt.response 500 true [],
         HttpAttempt.response 200 true "body".data]
        "https://x.test/a.md".data ["out".data, "a.md".data] defaultMaxRetries
      = (Except.ok 4, 3,
         [FsOp.createDirAll ["out".data], FsOp.writeFile ["out".data, "a.md".data] 4]))
    ∧ (download_file [HttpAttempt.response 404 true []]
        "https://x.test/a.md".data ["out".data, "a.md".data] defaultMaxRetries
      = (Except.error (DownloadError.fileNotFound "https://x.test/a.md".data), 1, [])) := by
  refine ⟨rfl, rfl, rfl, rfl⟩

/-- Claim C2, counterexample: a 301 response — neither 2xx nor 404 nor
5xx — is not returned immediately as `HttpError{301}`; the client consumes
a retry attempt and succeeds on the next response instead. -/
theorem fetch_301_retries_counterexample :
    fetchContent [HttpAttempt.response 301 true [], HttpAttempt.response 200 true "b".data]
        "u".data defaultMaxRetries
      = (Except.ok "b".data, 2)
    ∧ fetchContent [HttpAttempt.response 301 true [], HttpAttempt.response 200 true "b".data]
        "u".data defaultMaxRetries
      ≠ (Except.error (DownloadError.httpError 301 "u".data), 1)
    ∧ download_file [HttpAttempt.response 301 true [], HttpAttempt.response 200 true "b".data]
        "u".data ["f".data] defaultMaxRetries
      = (Except.ok 1, 2, [FsOp.createDirAll [], FsOp.writeFile ["f".data] 1]) := by
  refine ⟨rfl, ?_, rfl⟩
  intro heq
  exact absurd (congrArg Prod.snd heq) (by decide)

/-- Claim C9, counterexample: recording an outcome for the same reference
twice increments `total_files` twice — the accounting is per call, not
once per distinct reference. -/
theorem add_success_twice_counts_twice :
    (((DownloadResult.new.add_success "u".data "p".data 5).add_success
        "u".data "p".data 5).total_files = 2)
    ∧ (2 : Nat) ≠ 1 := by
  refine ⟨rfl, by decide⟩

/-- Claim C9, amended: `total_files` is incremented exactly once per call
to `add_success` or `add_failure` (per recorded outcome), regardless of the
reference. -/
theorem total_files_increments_per_call (r : DownloadResult) (url lp err : Str) (bytes : Nat) :
    (r.add_success url lp bytes).total_files = r.total_files + 1
    ∧ (r.add_failure url err).total_files = r.total_files + 1 :=
  ⟨rfl, rfl⟩

set_option maxRecDepth 4096 in
/-- Claim C10: `sanitize_filename` panics (models as `none`) on the
256-byte string of 128 copies of the two-byte character `é`, because
`String::truncate(255)` is asked to cut in the middle of a character. -/
theorem sanitize_panics_on_multibyte :
    sanitize_filename (List.replicate 128 'é') = none := by
  rfl

set_option maxRecDepth 8192 in
/-- Claim C6, counterexample: on `'a'` followed by 128 `é`s (257 UTF-8
bytes, 129 characters) the code truncates at 255 bytes and returns 128
characters, while the spec's 255-character truncation would leave the
string unchanged. -/
theorem sanitize_differs_from_spec_truncation :
    sanitize_filename ('a' :: List.replicate 128 'é')
      = some ('a' :: List.replicate 127 'é')
    ∧ sanitizeSpec ('a' :: List.replicate 128 'é') = 'a' :: List.replicate 128 'é'
    ∧ ('a' :: List.replicate 128 'é') ≠ ('a' :: List.replicate 127 'é') := by
  refine ⟨rfl, rfl, by decide⟩

/-- Claim C6, amended: `sanitize_filename` equals the spec's
replace-trim-placeholder pipeline with the truncation measured in UTF-8
bytes (255 bytes, panicking when byte 255 is not a character boundary). -/
theorem sanitize_filename_eq_spec_bytes (s : Str) :
    sanitize_filename s = sanitizeSpecBytes s := by
  by_cases h : s.map replaceInvalid = []
  · simp [sanitize_filename, sanitizeSpecBytes, h]
    rfl
  · simp [sanitize_filename, sanitizeSpecBytes, h]

/-- Claim C8, counterexample: a manifest that parses to zero references
yields `Ok` with the empty `DownloadResult`, but that empty result does
not count as successful: `all_successful` is `false` on it. -/
theorem empty_manifest_counterexample :
    process_url_parse_phase "# only a comment\n".data "https://x.test".data
      = .ok (ManifestPhase.emptyRun DownloadResult.new)
    ∧ DownloadResult.new.all_successful = false := by
  refine ⟨rfl, rfl⟩

/-- Claim C8, amended: when the manifest parses to zero references the run
returns `Ok` with the empty result (zero successes, failures and bytes)
rather than an error, but this empty result is not "successful":
`all_successful` requires at least one success. -/
theorem empty_manifest_ok_empty (content base_url : Str)
    (h : parse_llms_txt content base_url = .ok []) :
    process_url_parse_phase content base_url = .ok (ManifestPhase.emptyRun DownloadResult.new)
    ∧ DownloadResult.new.success_count = 0
    ∧ DownloadResult.new.failure_count = 0
    ∧ DownloadResult.new.total_bytes = 0
    ∧ DownloadResult.new.all_successful = false := by
  refine ⟨?_, rfl, rfl, rfl, rfl⟩
  unfold process_url_parse_phase
  rw [h]
  rfl

/-- Witness for `empty_manifest_ok_empty` at a concrete comment-only
manifest. -/
theorem empty_manifest_ok_empty_witness :
    process_url_parse_phase "# nothing here\n".data "https://x.test".data
      = .ok (ManifestPhase.emptyRun DownloadResult.new)
    ∧ DownloadResult.new.success_count = 0
    ∧ DownloadResult.new.failure_count = 0
    ∧ DownloadResult.new.total_bytes = 0
    ∧ DownloadResult.new.all_successful = false :=
  empty_manifest_ok_empty "# nothing here\n".data "https://x.test".data (by rfl)

/-- Claim C3: the two-reference manifest of end-to-end scenario A parses
against base `https://x.test` to exactly the two expected absolute URLs,
in manifest order. -/
theorem scenario_a_parse :
    parse_llms_txt "# comment\n/docs/a.md\n- [B](/docs/b.md): desc\n".data
        "https://x.test".data
      = .ok ["https://x.test/docs/a.md".data, "https://x.test/docs/b.md".data] := by
  rfl

/-- Claim C5, counterexample: a manifest line that is itself an absolute
`mailto:` URL is passed through verbatim, so the parser's output can carry
a scheme that is neither `http` nor `https` and no host at all. -/
theorem parse_llms_txt_mailto_counterexample :
    parse_llms_txt "mailto:john.doe@x.com".data "https://x.test".data
      = .ok ["mailto:john.doe@x.com".data]
    ∧ Url.parse "mailto:john.doe@x.com".data
      = some ⟨"mailto".data, none, none, "john.doe@x.com".data, none, none⟩
    ∧ "mailto".data ≠ "http".data
    ∧ "mailto".data ≠ "https".data := by
  refine ⟨rfl, rfl, by decide, by decide⟩

/-- Claim C7, counterexample: the input `https://x.test` parses as a valid
absolute URL, yet `resolve_url` returns the normalised serialisation
`https://x.test/` (the empty path is serialised as `/`), not the input. -/
theorem resolve_url_normalizes_counterexample :
    resolve_url "https://x.test".data
        ⟨"https".data, some "x.test".data, none, "/".data, none, none⟩
      = .ok "https://x.test/".data
    ∧ "https://x.test/".data ≠ "https://x.test".data := by
  refine ⟨rfl, by decide⟩

/-! ## Helper lemmas about the string model -/

theorem twAppAll (p : Char → Bool) (xs ys : Str) (h : xs.all p = true) :
    (xs ++ ys).takeWhile p = xs ++ ys.takeWhile p := by
  induction xs with
  | nil => simp
  | cons a t ih =>
    simp only [List.all_cons, Bool.and_eq_true] at h
    simp [List.takeWhile_cons, h.1, ih h.2]

theorem dwAppAll (p : Char → Bool) (xs ys : Str) (h : xs.all p = true) :
    (xs ++ ys).dropWhile p = ys.dropWhile p := by
  induction xs with
  | nil => simp
  | cons a t ih =>
    simp only [List.all_cons, Bool.and_eq_true] at h
    simp [List.dropWhile_cons, h.1, ih h.2]

theorem twConsNeg (p : Char → Bool) (c : Char) (cs : Str) (h : p c = false) :
    (c :: cs).takeWhile p = [] := by
  simp [List.takeWhile_cons, h]

theorem dwConsNeg (p : Char → Bool) (c : Char) (cs : Str) (h : p c = false) :
    (c :: cs).dropWhile p = c :: cs := by
  simp [List.dropWhile_cons, h]

theorem twAllSelf (p : Char → Bool) (l : Str) (h : l.all p = true) :
    l.takeWhile p = l := by
  have := twAppAll p l [] h
  simpa using this

theorem dwAllNil (p : Char → Bool) (l : Str) (h : l.all p = true) :
    l.dropWhile p = [] := by
  have := dwAppAll p l [] h
  simpa using this

theorem mapSelf (f : Char → Char) (l : Str) (h : ∀ c ∈ l, f c = c) : l.map f = l := by
  induction l with
  | nil => rfl
  | cons a t ih =>
    simp only [List.map_cons]
    rw [h a (List.mem_cons_self a t), ih (fun c hc => h c (List.mem_cons_of_mem a hc))]

theorem dwHeadFalse (p : Char → Bool) :
    ∀ (l : Str) (c : Char) (t : Str), l.dropWhile p = c :: t → p c = false := by
  intro l
  induction l with
  | nil => intro c t h; simp at h
  | cons a l ih =>
    intro c t h
    cases hp : p a with
    | true =>
      rw [List.dropWhile_cons, if_pos (by simp [hp])] at h
      exact ih c t h
    | false =>
      rw [List.dropWhile_cons, if_neg (by simp [hp])] at h
      cases h
      exact hp

theorem twHeadTrue (p : Char → Bool) :
    ∀ (l : Str) (c : Char) (t : Str), l.takeWhile p = c :: t →
      p c = true ∧ ∃ r, l = c :: r := by
  intro l
  induction l with
  | nil => intro c t h; simp at h
  | cons a l _ =>
    intro c t h
    cases hp : p a with
    | true =>
      rw [List.takeWhile_cons, if_pos (by simp [hp])] at h
      cases h
      exact ⟨hp, l, rfl⟩
    | false =>
      rw [List.takeWhile_cons, if_neg (by simp [hp])] at h
      cases h

theorem dwAppLastNe (p : Char → Bool) (c : Char) (hc : p c = false) :
    ∀ (xs : Str), (xs ++ [c]).dropWhile p ≠ [] := by
  intro xs
  induction xs with
  | nil => simp [dwConsNeg p c [] hc]
  | cons a t ih =>
    cases hp : p a with
    | true => simpa [List.dropWhile_cons, hp] using ih
    | false => simp [List.dropWhile_cons, hp]

/-- The directory part of a `/`-rooted path is again `/`-rooted. -/
theorem dirOfPath_head (t : Str) : ∃ d, dirOfPath ('/' :: t) = '/' :: d := by
  unfold dirOfPath
  have hrev : ('/' :: t).reverse = t.reverse ++ ['/'] := by simp
  rw [hrev]
  set g : Char → Bool := fun c => !(decide (c = '/')) with hg
  have hgc : g '/' = false := by simp [hg]
  have hne : (t.reverse ++ ['/']).dropWhile g ≠ [] := dwAppLastNe g '/' hgc t.reverse
  have hsuf : (t.reverse ++ ['/']).dropWhile g <:+ t.reverse ++ ['/'] := List.dropWhile_suffix g
  obtain ⟨pre, hpre⟩ := hsuf
  have hlast : ((t.reverse ++ ['/']).dropWhile g).getLast? = some '/' := by
    have h1 : (pre ++ (t.reverse ++ ['/']).dropWhile g).getLast? = some '/' := by
      rw [hpre]
      rw [@List.getLast?_append_of_ne_nil Char t.reverse ['/'] (by simp)]
      rfl
    rw [List.getLast?_append_of_ne_nil pre hne] at h1
    exact h1
  rw [← List.head?_reverse] at hlast
  cases hd : ((t.reverse ++ ['/']).dropWhile g).reverse with
  | nil => rw [hd] at hlast; simp at hlast
  | cons a d =>
    rw [hd] at hlast
    simp only [List.head?_cons, Option.some.injEq] at hlast
    exact ⟨d, by rw [hlast]⟩

theorem splitChar_mem_all (p : Char → Bool) (sep : Char) :
    ∀ (l : Str), l.all p = true → ∀ s ∈ splitChar sep l, s.all p = true := by
  intro l
  induction l with
  | nil =>
    intro _ s hs
    simp only [splitChar] at hs
    simp only [List.mem_singleton] at hs
    subst hs
    rfl
  | cons c cs ih =>
    intro hall s hs
    simp only [List.all_cons, Bool.and_eq_true] at hall
    unfold splitChar at hs
    by_cases hsep : c = sep
    · rw [if_pos hsep] at hs
      rcases List.mem_cons.1 hs with h1 | h2
      · subst h1; rfl
      · exact ih hall.2 s h2
    · rw [if_neg hsep] at hs
      cases hsc : splitChar sep cs with
      | nil => rw [hsc] at hs; simp only [List.mem_singleton] at hs; subst hs; simp [hall.1]
      | cons s0 ss =>
        rw [hsc] at hs
        rcases List.mem_cons.1 hs with h1 | h2
        · subst h1
          have hs0 : s0.all p = true := ih hall.2 s0 (by rw [hsc]; exact List.mem_cons_self s0 ss)
          simp [hall.1, hs0]
        · exact ih hall.2 s (by rw [hsc]; exact List.mem_cons_of_mem s0 h2)

/-! ## Character-class bridging lemmas -/

theorem lowerChar_id (c : Char) (h : isAsciiUpper c = false) : toLowerChar c = c := by
  simp [toLowerChar, h]

theorem lowerSchemeChar_not_upper (c : Char) (h : isLowerSchemeChar c = true) :
    isAsciiUpper c = false := by
  cases hb : isAsciiUpper c with
  | false => rfl
  | true =>
    exfalso
    simp only [isLowerSchemeChar, isAsciiLower, isAsciiDigit, Bool.or_eq_true,
      Bool.and_eq_true, decide_eq_true_eq] at h
    simp only [isAsciiUpper, Bool.and_eq_true, decide_eq_true_eq] at hb
    omega

theorem asciiLower_not_upper (c : Char) (h : isAsciiLower c = true) :
    isAsciiUpper c = false := by
  cases hb : isAsciiUpper c with
  | false => rfl
  | true =>
    exfalso
    simp only [isAsciiLower, Bool.and_eq_true, decide_eq_true_eq] at h
    simp only [isAsciiUpper, Bool.and_eq_true, decide_eq_true_eq] at hb
    omega

theorem hostChar_not_upper (c : Char) (h : isHostChar c = true) :
    isAsciiUpper c = false := by
  cases hb : isAsciiUpper c with
  | false => rfl
  | true =>
    exfalso
    simp only [isHostChar, isAsciiLower, isAsciiDigit, Bool.or_eq_true,
      Bool.and_eq_true, decide_eq_true_eq] at h
    simp only [isAsciiUpper, Bool.and_eq_true, decide_eq_true_eq] at hb
    omega

theorem schemeOk_lower_id (s : Str) (h : schemeOk s = true) : lowerStr s = s := by
  cases s with
  | nil => rfl
  | cons c cs =>
    simp only [schemeOk, Bool.and_eq_true] at h
    unfold lowerStr
    apply mapSelf
    intro x hx
    rcases List.mem_cons.1 hx with h1 | h2
    · subst h1; exact lowerChar_id x (asciiLower_not_upper x h.1)
    · exact lowerChar_id x
        (lowerSchemeChar_not_upper x ((List.all_eq_true.1 h.2) x h2))

theorem hostStr_lower_id (s : Str) (h : s.all isHostChar = true) : lowerStr s = s := by
  unfold lowerStr
  apply mapSelf
  intro x hx
  exact lowerChar_id x (hostChar_not_upper x ((List.all_eq_true.1 h) x hx))

theorem lowerSchemeChar_schemeChar (c : Char) (h : isLowerSchemeChar c = true) :
    isSchemeChar c = true := by
  simp only [isLowerSchemeChar, Bool.or_eq_true] at h
  simp only [isSchemeChar, Bool.or_eq_true]
  tauto

theorem schemeOk_all_schemeChar (s : Str) (h : schemeOk s = true) :
    s.all isSchemeChar = true := by
  cases s with
  | nil => rfl
  | cons c cs =>
    simp only [schemeOk, Bool.and_eq_true] at h
    simp only [List.all_cons, Bool.and_eq_true]
    constructor
    · simp only [isSchemeChar, Bool.or_eq_true]
      exact Or.inl (Or.inl (Or.inl (Or.inl (Or.inr h.1))))
    · rw [List.all_eq_true]
      intro x hx
      exact lowerSchemeChar_schemeChar x ((List.all_eq_true.1 h.2) x hx)

theorem pathChar_notQH (c : Char) (h : isPathChar c = true) : notQH c = true := by
  by_cases h1 : c = '?'
  · subst h1; exact absurd h (by decide)
  · by_cases h2 : c = '#'
    · subst h2; exact absurd h (by decide)
    · simp [notQH, h1, h2]

theorem queryChar_notHash (c : Char) (h : isQueryChar c = true) : notHash c = true := by
  by_cases h2 : c = '#'
  · subst h2; exact absurd h (by decide)
  · simp [notHash, h2]

theorem hostChar_notAuthEnd (c : Char) (h : isHostChar c = true) : notAuthEnd c = true := by
  by_cases h1 : c = '/'
  · subst h1; exact absurd h (by decide)
  · by_cases h2 : c = '?'
    · subst h2; exact absurd h (by decide)
    · by_cases h3 : c = '#'
      · subst h3; exact absurd h (by decide)
      · simp [notAuthEnd, h1, h2, h3]

theorem hostChar_notColon (c : Char) (h : isHostChar c = true) : notColon c = true := by
  by_cases h1 : c = ':'
  · subst h1; exact absurd h (by decide)
  · simp [notColon, h1]

theorem digit_notAuthEnd (c : Char) (h : isAsciiDigit c = true) : notAuthEnd c = true := by
  by_cases h1 : c = '/'
  · subst h1; exact absurd h (by decide)
  · by_cases h2 : c = '?'
    · subst h2; exact absurd h (by decide)
    · by_cases h3 : c = '#'
      · subst h3; exact absurd h (by decide)
      · simp [notAuthEnd, h1, h2, h3]

theorem authEnd_notQH_slash (c : Char) (h1 : notAuthEnd c = false) (h2 : notQH c = true) :
    c = '/' := by
  by_cases hs : c = '/'
  · exact hs
  · exfalso
    by_cases hq : c = '?'
    · subst hq; exact absurd h2 (by decide)
    · by_cases hh : c = '#'
      · subst hh; exact absurd h2 (by decide)
      · simp [notAuthEnd, hs, hq, hh] at h1

/-! ## Decimal digit round-trip -/

theorem natToDigits_all_digit (n : Nat) : (natToDigits n).all isAsciiDigit = true := by
  unfold natToDigits
  by_cases h : n = 0
  · rw [if_pos h]; decide
  · rw [if_neg h]
    rw [List.all_eq_true]
    intro c hc
    rw [List.mem_reverse, List.mem_map] at hc
    obtain ⟨d, hd, hcd⟩ := hc
    have hdlt : d < 10 := Nat.digits_lt_base (by norm_num) hd
    subst hcd
    interval_cases d <;> decide

theorem natToDigits_ne_nil (n : Nat) : natToDigits n ≠ [] := by
  unfold natToDigits
  by_cases h : n = 0
  · rw [if_pos h]; simp
  · rw [if_neg h]
    simp only [ne_eq, List.reverse_eq_nil_iff, List.map_eq_nil_iff]
    rw [Nat.digits_eq_nil_iff_eq_zero]
    exact h

theorem digitsToNat_natToDigits (n : Nat) : digitsToNat (natToDigits n) = n := by
  unfold natToDigits digitsToNat
  by_cases h : n = 0
  · rw [if_pos h, h]; decide
  · rw [if_neg h]
    rw [List.map_reverse, List.reverse_reverse, List.map_map]
    have hmap : (Nat.digits 10 n).map (digitVal ∘ fun d => Char.ofNat (48 + d))
        = Nat.digits 10 n := by
      apply List.map_congr_left ?_ |>.trans (List.map_id _)
      intro d hd
      have hdlt : d < 10 := Nat.digits_lt_base (by norm_num) hd
      interval_cases d <;> rfl
    rw [hmap, Nat.ofDigits_digits]

theorem bnot_true_eq_false (b : Bool) (h : (!b) = true) : b = false := by
  cases b
  · rfl
  · simp at h

/-! ## Round-trip: parsing a serialised well-formed URL -/

theorem splitPQF_fst (s : Str) : (splitPQF s).1 = s.takeWhile notQH := by
  simp only [splitPQF]
  split <;> rfl

theorem splitPQF_roundtrip (p : Str) (q f : Option Str)
    (hp : p.all notQH = true) (hq : optAll notHash q = true) :
    splitPQF (p ++ optQStr q ++ optFStr f) = (p, q, f) := by
  cases q with
  | none =>
    cases f with
    | none =>
      simp only [optQStr, optFStr, List.append_nil]
      simp only [splitPQF]
      rw [twAllSelf _ _ hp, dwAllNil _ _ hp]
    | some fs =>
      simp only [optQStr, optFStr, List.append_nil]
      have h1 : (p ++ '#' :: fs).takeWhile notQH = p := by
        rw [twAppAll _ _ _ hp, twConsNeg _ _ _ (by decide), List.append_nil]
      have h2 : (p ++ '#' :: fs).dropWhile notQH = '#' :: fs := by
        rw [dwAppAll _ _ _ hp, dwConsNeg _ _ _ (by decide)]
      simp only [splitPQF, h1, h2]
  | some qs =>
    have hqs : qs.all notHash = true := hq
    cases f with
    | none =>
      simp only [optQStr, optFStr, List.append_nil]
      have h1 : (p ++ '?' :: qs).takeWhile notQH = p := by
        rw [twAppAll _ _ _ hp, twConsNeg _ _ _ (by decide), List.append_nil]
      have h2 : (p ++ '?' :: qs).dropWhile notQH = '?' :: qs := by
        rw [dwAppAll _ _ _ hp, dwConsNeg _ _ _ (by decide)]
      simp only [splitPQF, h1, h2]
      rw [twAllSelf _ _ hqs, dwAllNil _ _ hqs]
    | some fs =>
      simp only [optQStr, optFStr, List.append_assoc, List.cons_append]
      have h1 : (p ++ '?' :: (qs ++ '#' :: fs)).takeWhile notQH = p := by
        rw [twAppAll _ _ _ hp, twConsNeg _ _ _ (by decide), List.append_nil]
      have h2 : (p ++ '?' :: (qs ++ '#' :: fs)).dropWhile notQH = '?' :: (qs ++ '#' :: fs) := by
        rw [dwAppAll _ _ _ hp, dwConsNeg _ _ _ (by decide)]
      simp only [splitPQF, h1, h2]
      have h3 : (qs ++ '#' :: fs).takeWhile notHash = qs := by
        rw [twAppAll _ _ _ hqs, twConsNeg _ _ _ (by decide), List.append_nil]
      have h4 : (qs ++ '#' :: fs).dropWhile notHash = '#' :: fs := by
        rw [dwAppAll _ _ _ hqs, dwConsNeg _ _ _ (by decide)]
      rw [h3, h4]

theorem pathChar_all_notQH (p : Str) (h : p.all isPathChar = true) : p.all notQH = true := by
  rw [List.all_eq_true] at h ⊢
  intro c hc
  exact pathChar_notQH c (h c hc)

theorem queryOpt_all_notHash (q : Option Str) (h : optAll isQueryChar q = true) :
    optAll notHash q = true := by
  cases q with
  | none => rfl
  | some qs =>
    simp only [optAll] at h ⊢
    rw [List.all_eq_true] at h ⊢
    intro c hc
    exact queryChar_notHash c (h c hc)

theorem parsePort_portStr (scheme : Str) (port : Option Nat)
    (hport : ∀ p, port = some p → p < 65536 ∧ defaultPort scheme ≠ some p) :
    parsePort scheme (portStr port) = some port := by
  cases port with
  | none => rfl
  | some p =>
    obtain ⟨hlt, hdef⟩ := hport p rfl
    simp only [portStr, parsePort]
    rw [if_neg (natToDigits_ne_nil p)]
    rw [if_pos (natToDigits_all_digit p)]
    simp only [digitsToNat_natToDigits]
    rw [if_pos hlt, if_neg hdef]

theorem parseAfterAuthority_roundtrip (scheme hst : Str) (port : Option Nat)
    (path : Str) (q f : Option Str)
    (hh : hst ≠ []) (hhc : hst.all isHostChar = true)
    (hport : ∀ p, port = some p → p < 65536 ∧ defaultPort scheme ≠ some p)
    (hpath : (path = [] ∧ specialScheme scheme = false) ∨ ∃ t, path = '/' :: t)
    (hpc : path.all isPathChar = true)
    (hqc : optAll isQueryChar q = true) (hfc : optAll isFragChar f = true) :
    parseAfterAuthority scheme
        ((hst ++ portStr port) ++ (path ++ optQStr q ++ optFStr f))
      = some ⟨scheme, some hst, port, path, q, f⟩ := by
  have hxs : (hst ++ portStr port).all notAuthEnd = true := by
    rw [List.all_append, Bool.and_eq_true]
    constructor
    · rw [List.all_eq_true]
      intro c hc
      exact hostChar_notAuthEnd c ((List.all_eq_true.1 hhc) c hc)
    · cases port with
      | none => rfl
      | some p =>
        simp only [portStr, List.all_cons, Bool.and_eq_true]
        refine ⟨by decide, ?_⟩
        rw [List.all_eq_true]
        intro c hc
        exact digit_notAuthEnd c ((List.all_eq_true.1 (natToDigits_all_digit p)) c hc)
  have htail : (path ++ optQStr q ++ optFStr f).takeWhile notAuthEnd = []
      ∧ (path ++ optQStr q ++ optFStr f).dropWhile notAuthEnd
          = path ++ optQStr q ++ optFStr f := by
    rcases hpath with ⟨hnil, _⟩ | ⟨t, hcons⟩
    · subst hnil
      cases q with
      | some qs =>
        simp only [optQStr, List.nil_append, List.cons_append]
        exact ⟨twConsNeg _ _ _ (by decide), dwConsNeg _ _ _ (by decide)⟩
      | none =>
        cases f with
        | some fs =>
          simp only [optQStr, optFStr, List.nil_append]
          exact ⟨twConsNeg _ _ _ (by decide), dwConsNeg _ _ _ (by decide)⟩
        | none => simp [optQStr, optFStr]
    · subst hcons
      simp only [List.cons_append]
      exact ⟨twConsNeg _ _ _ (by decide), dwConsNeg _ _ _ (by decide)⟩
  have hauth : ((hst ++ portStr port) ++ (path ++ optQStr q ++ optFStr f)).takeWhile notAuthEnd
      = hst ++ portStr port := by
    rw [twAppAll _ _ _ hxs, htail.1, List.append_nil]
  have hrest3 : ((hst ++ portStr port) ++ (path ++ optQStr q ++ optFStr f)).dropWhile notAuthEnd
      = path ++ optQStr q ++ optFStr f := by
    rw [dwAppAll _ _ _ hxs, htail.2]
  have hhall : hst.all notColon = true := by
    rw [List.all_eq_true]
    intro c hc
    exact hostChar_notColon c ((List.all_eq_true.1 hhc) c hc)
  have hhost : (hst ++ portStr port).takeWhile notColon = hst := by
    rw [twAppAll _ _ _ hhall]
    cases port with
    | none => simp [portStr]
    | some p =>
      simp only [portStr]
      rw [twConsNeg _ _ _ (by decide), List.append_nil]
  have hdropc : (hst ++ portStr port).dropWhile notColon = portStr port := by
    rw [dwAppAll _ _ _ hhall]
    cases port with
    | none => simp [portStr]
    | some p =>
      simp only [portStr]
      exact dwConsNeg _ _ _ (by decide)
  have hsp : splitPQF (path ++ optQStr q ++ optFStr f) = (path, q, f) :=
    splitPQF_roundtrip path q f (pathChar_all_notQH path hpc) (queryOpt_all_notHash q hqc)
  simp only [parseAfterAuthority, hauth, hrest3, hhost, hdropc,
    hostStr_lower_id hst hhc, hsp]
  rw [if_neg hh, if_neg (by rw [hhc]; decide), parsePort_portStr scheme port hport]
  have hpath0 : (if path = [] && specialScheme scheme then ['/'] else path) = path := by
    rcases hpath with ⟨hnil, hns⟩ | ⟨t, hcons⟩
    · subst hnil; rw [hns]; simp
    · subst hcons; simp
  simp only [hpath0]
  rw [if_pos (by rw [hpc, hqc, hfc]; rfl)]

theorem parse_app (scheme T : Str) (hs : schemeOk scheme = true) :
    Url.parse (scheme ++ ':' :: T) = parseRest scheme T := by
  have hall : scheme.all isSchemeChar = true := schemeOk_all_schemeChar scheme hs
  have hdw : (scheme ++ ':' :: T).dropWhile isSchemeChar = ':' :: T := by
    rw [dwAppAll _ _ _ hall, dwConsNeg _ _ _ (by decide)]
  have htw : (scheme ++ ':' :: T).takeWhile isSchemeChar = scheme := by
    rw [twAppAll _ _ _ hall, twConsNeg _ _ _ (by decide), List.append_nil]
  simp only [Url.parse, hdw, htw, schemeOk_lower_id scheme hs, hs]
  rfl

theorem pathNoAuthOk_not_slashslash (path : Str) (q f : Option Str)
    (hp : pathNoAuthOk path = true) :
    ∀ t, path ++ optQStr q ++ optFStr f ≠ '/' :: '/' :: t := by
  intro t heq
  cases path with
  | nil =>
    cases q with
    | some qs => simp [optQStr] at heq
    | none =>
      cases f with
      | some fs => simp [optQStr, optFStr] at heq
      | none => simp [optQStr, optFStr] at heq
  | cons c1 p1 =>
    cases p1 with
    | nil =>
      simp only [List.cons_append, List.nil_append, List.cons.injEq] at heq
      obtain ⟨hc1, heq2⟩ := heq
      cases q with
      | some qs => simp [optQStr] at heq2
      | none =>
        cases f with
        | some fs => simp [optQStr, optFStr] at heq2
        | none => simp [optQStr, optFStr] at heq2
    | cons c2 p2 =>
      simp only [List.cons_append, List.cons.injEq] at heq
      obtain ⟨hc1, hc2, _⟩ := heq
      subst hc1
      subst hc2
      exact absurd hp (by simp [pathNoAuthOk])

theorem parseRest_no_authority (scheme T : Str) (hT : ∀ t, T ≠ '/' :: '/' :: t) :
    parseRest scheme T =
      (if specialScheme scheme then none
       else
         match splitPQF T with
         | (p, q, f) =>
           if pathNoAuthOk p && p.all isPathChar &&
              optAll isQueryChar q && optAll isFragChar f then
             some ⟨scheme, none, none, p, q, f⟩
           else none) := by
  unfold parseRest
  split
  · rename_i rest2 heq
    exact absurd rfl (hT heq)
  · rfl

theorem parse_toString_of_wf (u : Url) (h : Url.wf u = true) :
    Url.parse (Url.toString u) = some u := by
  obtain ⟨scheme, host, port, path, q, f⟩ := u
  simp only [Url.wf, Bool.and_eq_true] at h
  obtain ⟨⟨⟨⟨⟨hs, hhost⟩, hport⟩, hpc⟩, hqc⟩, hfc⟩ := h
  cases host with
  | some hst =>
    simp only [Bool.and_eq_true] at hhost
    obtain ⟨⟨hne, hhc⟩, hpathm⟩ := hhost
    have hh : hst ≠ [] := by
      intro hcon
      rw [hcon] at hne
      simp at hne
    have hT : Url.toString ⟨scheme, some hst, port, path, q, f⟩
        = scheme ++ ':' :: ('/' :: '/' ::
            ((hst ++ portStr port) ++ (path ++ optQStr q ++ optFStr f))) := by
      simp [Url.toString, List.append_assoc]
    rw [hT, parse_app _ _ hs]
    have hstep : parseRest scheme ('/' :: '/' ::
        ((hst ++ portStr port) ++ (path ++ optQStr q ++ optFStr f)))
        = parseAfterAuthority scheme
            ((hst ++ portStr port) ++ (path ++ optQStr q ++ optFStr f)) := rfl
    rw [hstep]
    apply parseAfterAuthority_roundtrip scheme hst port path q f hh hhc
    · intro p hp
      subst hp
      simp only [Bool.and_eq_true] at hport
      refine ⟨of_decide_eq_true hport.1.2, ?_⟩
      exact of_decide_eq_false (bnot_true_eq_false _ hport.2)
    · cases path with
      | nil =>
        left
        exact ⟨rfl, bnot_true_eq_false _ hpathm⟩
      | cons c t =>
        right
        have hc : c = '/' := of_decide_eq_true hpathm
        exact ⟨t, by rw [hc]⟩
    · exact hpc
    · exact hqc
    · exact hfc
  | none =>
    simp only [Bool.and_eq_true] at hhost
    obtain ⟨⟨hnspec, hpnone⟩, hpna⟩ := hhost
    have hpeq : port = none := by
      cases port with
      | none => rfl
      | some p => simp at hpnone
    subst hpeq
    have hT : Url.toString ⟨scheme, none, none, path, q, f⟩
        = scheme ++ ':' :: (path ++ optQStr q ++ optFStr f) := by
      simp [Url.toString]
    rw [hT, parse_app _ _ hs]
    rw [parseRest_no_authority scheme _ (pathNoAuthOk_not_slashslash path q f hpna)]
    have hspecF : specialScheme scheme = false := bnot_true_eq_false _ hnspec
    rw [if_neg (by rw [hspecF]; exact Bool.false_ne_true)]
    rw [splitPQF_roundtrip path q f (pathChar_all_notQH path hpc) (queryOpt_all_notHash q hqc)]
    have hcond : (pathNoAuthOk path && path.all isPathChar &&
        optAll isQueryChar q && optAll isFragChar f) = true := by
      rw [hpna, hpc, hqc, hfc]
      rfl
    show (if (pathNoAuthOk path && path.all isPathChar &&
        optAll isQueryChar q && optAll isFragChar f) = true then
        some ({ scheme := scheme, host := none, port := none,
                path := path, query := q, fragment := f } : Url)
      else none)
      = some { scheme := scheme, host := none, port := none,
               path := path, query := q, fragment := f }
    rw [if_pos hcond]

/-! ## Soundness: every parse / join result is well-formed -/

theorem not_bnot_true (b : Bool) (h : ¬((!b) = true)) : b = true := by
  cases b
  · exact absurd rfl h
  · rfl

theorem not_eq_true_eq_false (b : Bool) (h : ¬(b = true)) : b = false := by
  cases b
  · rfl
  · exact absurd rfl h

theorem parsePort_sound (scheme : Str) (ps : Str) (port : Option Nat)
    (h : parsePort scheme ps = some port) :
    ∀ p, port = some p → p < 65536 ∧ defaultPort scheme ≠ some p := by
  intro p hp
  subst hp
  simp only [parsePort] at h
  split at h
  · simp at h
  · split at h
    · simp at h
    · split at h
      · split at h
        · rename_i hlt
          split at h
          · simp at h
          · rename_i hdef
            simp only [Option.some.injEq] at h
            cases h
            exact ⟨hlt, hdef⟩
        · simp at h
      · simp at h

theorem wf_parseAfterAuthority (scheme rest2 : Str) (u : Url)
    (hs : schemeOk scheme = true)
    (h : parseAfterAuthority scheme rest2 = some u) : Url.wf u = true := by
  simp only [parseAfterAuthority] at h
  split at h
  · simp at h
  · split at h
    · simp at h
    · rename_i hne hall
      split at h
      · simp at h
      · rename_i port hpp
        rcases hsp : splitPQF (rest2.dropWhile notAuthEnd) with ⟨path0, q, f⟩
        rw [hsp] at h
        dsimp only at h
        have hallT : (lowerStr ((rest2.takeWhile notAuthEnd).takeWhile notColon)).all
            isHostChar = true := not_bnot_true _ hall
        have hneF : (!(decide (lowerStr ((rest2.takeWhile notAuthEnd).takeWhile
            notColon) = []))) = true := by
          rw [decide_eq_false hne]
          rfl
        split at h
        · split at h
          · rename_i hval
            cases h
            simp only [Bool.and_eq_true] at hval
            simp only [Url.wf, Bool.and_eq_true]
            refine ⟨⟨⟨⟨⟨hs, ⟨⟨hneF, hallT⟩, rfl⟩⟩, ?_⟩, hval.1.1⟩,
              hval.1.2⟩, hval.2⟩
            cases port with
            | none => rfl
            | some p =>
              obtain ⟨hlt, hdef⟩ := parsePort_sound scheme _ _ hpp p rfl
              simp only [Option.isSome_some, Bool.true_and, Bool.and_eq_true]
              exact ⟨decide_eq_true hlt, by rw [decide_eq_false hdef]; rfl⟩
          · simp at h
        · rename_i hcond1
          split at h
          · rename_i hval
            cases h
            simp only [Bool.and_eq_true] at hval
            simp only [Url.wf, Bool.and_eq_true]
            refine ⟨⟨⟨⟨⟨hs, ⟨⟨hneF, hallT⟩, ?_⟩⟩, ?_⟩, hval.1.1⟩,
              hval.1.2⟩, hval.2⟩
            · cases hpath0 : path0 with
              | nil =>
                subst hpath0
                cases hss : specialScheme scheme with
                | false => rfl
                | true => exact absurd (by rw [hss]; rfl) hcond1
              | cons c t =>
                have hfst : (rest2.dropWhile notAuthEnd).takeWhile notQH = c :: t := by
                  have hx := splitPQF_fst (rest2.dropWhile notAuthEnd)
                  rw [hsp] at hx
                  rw [← hx, hpath0]
                obtain ⟨hnq, r, hr⟩ := twHeadTrue notQH _ c t hfst
                have hna : notAuthEnd c = false := dwHeadFalse notAuthEnd rest2 c r hr
                have hc : c = '/' := authEnd_notQH_slash c hna hnq
                subst hc
                rfl
            · cases port with
              | none => rfl
              | some p =>
                obtain ⟨hlt, hdef⟩ := parsePort_sound scheme _ _ hpp p rfl
                simp only [Option.isSome_some, Bool.true_and, Bool.and_eq_true]
                exact ⟨decide_eq_true hlt, by rw [decide_eq_false hdef]; rfl⟩
          · simp at h

theorem wf_parseRest (scheme rest : Str) (u : Url)
    (hs : schemeOk scheme = true)
    (h : parseRest scheme rest = some u) : Url.wf u = true := by
  unfold parseRest at h
  split at h
  · exact wf_parseAfterAuthority _ _ _ hs h
  · split at h
    · simp at h
    · rename_i hspec
      rcases hsp : splitPQF rest with ⟨p, q, f⟩
      rw [hsp] at h
      dsimp only at h
      split at h
      · rename_i hval
        cases h
        simp only [Bool.and_eq_true] at hval
        simp only [Url.wf, Bool.and_eq_true]
        refine ⟨⟨⟨⟨⟨hs, ⟨⟨?_, rfl⟩, hval.1.1.1⟩⟩, trivial⟩, hval.1.1.2⟩,
          hval.1.2⟩, hval.2⟩
        rw [not_eq_true_eq_false _ hspec]
        rfl
      · simp at h

theorem wf_parse (s : Str) (u : Url) (h : Url.parse s = some u) : Url.wf u = true := by
  simp only [Url.parse] at h
  split at h
  · split at h
    · simp at h
    · rename_i hns
      exact wf_parseRest _ _ _ (not_bnot_true _ hns) h
  · simp at h

theorem wf_join (base : Url) (rel : Str) (u : Url)
    (hb : Url.wf base = true) (h : Url.join base rel = some u) : Url.wf u = true := by
  have hb0 := hb
  simp only [Url.wf, Bool.and_eq_true] at hb0
  obtain ⟨⟨⟨⟨⟨hbs, hbhost⟩, hbport⟩, hbpc⟩, hbqc⟩, hbfc⟩ := hb0
  unfold Url.join at h
  split at h
  · -- rel = []
    cases h
    simp only [Url.wf, Bool.and_eq_true]
    exact ⟨⟨⟨⟨⟨hbs, hbhost⟩, hbport⟩, hbpc⟩, hbqc⟩, rfl⟩
  · -- rel = "//" ++ rest2
    exact wf_parseAfterAuthority _ _ _ hbs h
  · -- rel = '/' :: rest (absolute path)
    rename_i rest hne0
    rcases hsp : splitPQF ('/' :: rest) with ⟨p, q, f⟩
    rw [hsp] at h
    dsimp only at h
    split at h
    · rename_i hval
      cases h
      simp only [Bool.and_eq_true] at hval
      have hp : p = '/' :: rest.takeWhile notQH := by
        have hx := splitPQF_fst ('/' :: rest)
        rw [hsp] at hx
        dsimp only at hx
        rw [hx, List.takeWhile_cons, if_pos (by decide : notQH '/' = true)]
      simp only [Url.wf, Bool.and_eq_true]
      refine ⟨⟨⟨⟨⟨hbs, ?_⟩, hbport⟩, hval.1.1.1⟩, hval.1.2⟩, hval.2⟩
      cases hbh : base.host with
      | some hh =>
        rw [hbh] at hbhost
        simp only [Bool.and_eq_true] at hbhost
        simp only [Bool.and_eq_true]
        refine ⟨hbhost.1, ?_⟩
        rw [hp]
        rfl
      | none =>
        rw [hbh] at hbhost
        simp only [Bool.and_eq_true] at hbhost
        simp only [Bool.and_eq_true]
        exact ⟨hbhost.1, hval.1.1.2⟩
    · simp at h
  · -- rel = '?' :: rest (query only)
    dsimp only at h
    split at h
    · rename_i hval
      cases h
      simp only [Bool.and_eq_true] at hval
      simp only [Url.wf, Bool.and_eq_true]
      exact ⟨⟨⟨⟨⟨hbs, hbhost⟩, hbport⟩, hbpc⟩, hval.1⟩, hval.2⟩
    · simp at h
  · -- rel = '#' :: rest (fragment only)
    split at h
    · rename_i hval
      cases h
      simp only [Url.wf, Bool.and_eq_true]
      exact ⟨⟨⟨⟨⟨hbs, hbhost⟩, hbport⟩, hbpc⟩, hbqc⟩, hval⟩
    · simp at h
  · -- relative path reference
    rename_i c rest hne1 hne2 hne3 hne4
    split at h
    · simp at h
    · rename_i hcb
      have hcbT : canBeBase base = true := not_bnot_true _ hcb
      rcases hsp : splitPQF (c :: rest) with ⟨p0, q, f⟩
      rw [hsp] at h
      dsimp only at h
      split at h
      · -- dir = ['/'] (host present, empty base path)
        rename_i hcond1
        split at h
        · rename_i hval
          cases h
          simp only [Bool.and_eq_true] at hval hcond1
          simp only [Url.wf, Bool.and_eq_true]
          refine ⟨⟨⟨⟨⟨hbs, ?_⟩, hbport⟩, hval.1.1.1⟩, hval.1.2⟩, hval.2⟩
          cases hbh : base.host with
          | some hh =>
            rw [hbh] at hbhost
            simp only [Bool.and_eq_true] at hbhost
            simp only [Bool.and_eq_true]
            exact ⟨hbhost.1, rfl⟩
          | none =>
            rw [hbh] at hcond1
            simp at hcond1
        · simp at h
      · -- dir = dirOfPath base.path
        rename_i hcond1
        split at h
        · rename_i hval
          cases h
          simp only [Bool.and_eq_true] at hval
          simp only [Url.wf, Bool.and_eq_true]
          refine ⟨⟨⟨⟨⟨hbs, ?_⟩, hbport⟩, hval.1.1.1⟩, hval.1.2⟩, hval.2⟩
          cases hbh : base.host with
          | some hh =>
            rw [hbh] at hbhost
            simp only [Bool.and_eq_true] at hbhost
            simp only [Bool.and_eq_true]
            refine ⟨hbhost.1, ?_⟩
            cases hbpath : base.path with
            | nil =>
              exfalso
              apply hcond1
              rw [hbh, hbpath]
              rfl
            | cons c0 t0 =>
              rw [hbpath] at hbhost
              have hc0 : c0 = '/' := of_decide_eq_true hbhost.2
              subst hc0
              obtain ⟨d, hd⟩ := dirOfPath_head t0
              rw [hd, List.cons_append]
              rfl
          | none =>
            rw [hbh] at hbhost
            simp only [Bool.and_eq_true] at hbhost
            simp only [Bool.and_eq_true]
            exact ⟨hbhost.1, hval.1.1.2⟩
        · simp at h

/-! ## Resolution shape and the remaining claim theorems -/

theorem resolve_url_ok_shape (p : Str) (base : Url) (r : Str)
    (hb : Url.wf base = true) (h : resolve_url p base = .ok r) :
    ∃ v, Url.wf v = true ∧ r = Url.toString v ∧ Url.parse r = some v := by
  unfold resolve_url at h
  split at h
  · rename_i v hv
    cases h
    have hwf := wf_parse p v hv
    exact ⟨v, hwf, rfl, parse_toString_of_wf v hwf⟩
  · split at h
    · rename_i v hv
      cases h
      have hwf := wf_join base p v hb hv
      exact ⟨v, hwf, rfl, parse_toString_of_wf v hwf⟩
    · simp at h

/-- Claim C7, amended: `resolve_url` returns the crate's normalised
serialisation of an already-absolute reference (equal to the input exactly
when the input is already in serialised form), and resolving a returned
result again against the same well-formed base is the identity. -/
theorem resolve_url_idempotent (p : Str) (base : Url) (r : Str)
    (hb : Url.wf base = true) (h : resolve_url p base = .ok r) :
    (∀ v, Url.parse p = some v → r = Url.toString v)
    ∧ resolve_url r base = .ok r := by
  constructor
  · intro v hv
    unfold resolve_url at h
    rw [hv] at h
    dsimp only at h
    cases h
    rfl
  · obtain ⟨v, hwf, hr, hparse⟩ := resolve_url_ok_shape p base r hb h
    unfold resolve_url
    rw [hparse]
    dsimp only
    rw [hr]

/-- Witness for `resolve_url_idempotent`: resolving `/docs/a.md` against
`https://x.test/` and re-resolving the result. -/
theorem resolve_url_idempotent_witness :
    (∀ v, Url.parse "/docs/a.md".data = some v
        → "https://x.test/docs/a.md".data = Url.toString v)
    ∧ resolve_url "https://x.test/docs/a.md".data
        ⟨"https".data, some "x.test".data, none, "/".data, none, none⟩
      = .ok "https://x.test/docs/a.md".data :=
  resolve_url_idempotent "/docs/a.md".data
    ⟨"https".data, some "x.test".data, none, "/".data, none, none⟩
    "https://x.test/docs/a.md".data (by decide) (by rfl)

theorem parseManifestLines_parseable (base : Url) (hb : Url.wf base = true) :
    ∀ (lines : List Str) (urls : List Str),
      parseManifestLines base lines = .ok urls →
      ∀ x ∈ urls, ∃ v, Url.parse x = some v ∧ Url.wf v = true := by
  intro lines
  induction lines with
  | nil =>
    intro urls h x hx
    simp only [parseManifestLines] at h
    cases h
    simp at hx
  | cons line rest ih =>
    intro urls h x hx
    simp only [parseManifestLines] at h
    split at h
    · exact ih urls h x hx
    · split at h
      · exact ih urls h x hx
      · rename_i fp hfp
        split at h
        · simp at h
        · rename_i u0 hres
          cases hrec : parseManifestLines base rest with
          | error e =>
            rw [hrec] at h
            simp [Except.map] at h
          | ok us =>
            rw [hrec] at h
            simp only [Except.map] at h
            cases h
            rcases List.mem_cons.1 hx with h1 | h2
            · subst h1
              obtain ⟨v, hwf, _, hparse⟩ := resolve_url_ok_shape fp base x hb hres
              exact ⟨v, hparse, hwf⟩
            · exact ih us hrec x h2

/-- Claim C5, amended: every entry returned by the manifest parser is the
serialisation of a parseable, well-formed absolute URL — but its scheme
need not be `http`/`https` and it need not carry a host, since an already-
absolute manifest reference of any scheme is passed through. -/
theorem parse_llms_txt_outputs_parseable (content base_url : Str) (urls : List Str)
    (h : parse_llms_txt content base_url = .ok urls) :
    ∀ x ∈ urls, ∃ v, Url.parse x = some v ∧ Url.wf v = true := by
  unfold parse_llms_txt at h
  split at h
  · simp at h
  · rename_i base hbase
    exact parseManifestLines_parseable base (wf_parse base_url base hbase) _ urls h

/-- Witness for `parse_llms_txt_outputs_parseable` on a one-line manifest. -/
theorem parse_llms_txt_outputs_parseable_witness :
    ∃ v, Url.parse "https://x.test/docs/a.md".data = some v ∧ Url.wf v = true :=
  parse_llms_txt_outputs_parseable "/docs/a.md".data "https://x.test".data
    ["https://x.test/docs/a.md".data] (by rfl)
    "https://x.test/docs/a.md".data (List.mem_singleton.mpr rfl)

/-- Claim C4, counterexample: the path mapper performs a filesystem side
effect of its own — on `https://x.test/docs/a.md` it creates the parent
directory of its destination via `create_dir_all`, so its effect list is
not empty. -/
theorem get_local_file_path_side_effect :
    get_local_file_path "https://x.test/docs/a.md".data ["out".data]
      = some (.ok ["out".data, "docs".data, "a.md".data],
              [FsOp.createDirAll ["out".data, "docs".data]])
    ∧ [FsOp.createDirAll ["out".data, "docs".data]] ≠ ([] : List FsOp) := by
  refine ⟨rfl, by decide⟩

theorem truncGo_ascii (s : Str) :
    ∀ (n : Nat), (∀ c ∈ s, utf8Size c = 1) → ∃ t, truncGo s n = some t := by
  induction s with
  | nil =>
    intro n _
    cases n with
    | zero => exact ⟨[], rfl⟩
    | succ m => exact ⟨[], rfl⟩
  | cons c cs ih =>
    intro n hall
    cases n with
    | zero => exact ⟨[], rfl⟩
    | succ m =>
      have hc : utf8Size c = 1 := hall c (List.mem_cons_self c cs)
      obtain ⟨t, ht⟩ := ih (m + 1 - utf8Size c) (fun x hx => hall x (List.mem_cons_of_mem c hx))
      refine ⟨c :: t, ?_⟩
      simp only [truncGo]
      rw [if_pos (by rw [hc]; omega), ht]
      rfl

theorem rustTruncate_ascii (s : Str) (n : Nat) (hall : ∀ c ∈ s, utf8Size c = 1) :
    ∃ t, rustTruncate s n = some t := by
  unfold rustTruncate
  by_cases hle : utf8Len s ≤ n
  · rw [if_pos hle]
    exact ⟨s, rfl⟩
  · rw [if_neg hle]
    exact truncGo_ascii s n hall

theorem trimMatchesBy_subset (p : Char → Bool) (s : Str) :
    ∀ c ∈ trimMatchesBy p s, c ∈ s := by
  intro c hc
  unfold trimMatchesBy at hc
  rw [List.mem_reverse] at hc
  obtain ⟨pre1, hpre1⟩ := @List.dropWhile_suffix Char ((s.dropWhile p).reverse) p
  have hc2 : c ∈ (s.dropWhile p).reverse := by
    rw [← hpre1]
    exact List.mem_append.2 (Or.inr hc)
  rw [List.mem_reverse] at hc2
  obtain ⟨pre2, hpre2⟩ := @List.dropWhile_suffix Char s p
  rw [← hpre2]
  exact List.mem_append.2 (Or.inr hc2)

theorem sanitize_filename_ascii_isSome (s : Str) (h : ∀ c ∈ s, c.toNat < 128) :
    ∃ t, sanitize_filename s = some t := by
  have hmap : ∀ c ∈ s.map replaceInvalid, c.toNat < 128 := by
    intro c hc
    rw [List.mem_map] at hc
    obtain ⟨a, ha, hrep⟩ := hc
    subst hrep
    unfold replaceInvalid
    by_cases hi : (invalidFileChar a || isRustControl a) = true
    · rw [if_pos hi]
      decide
    · rw [if_neg hi]
      exact h a ha
  simp only [sanitize_filename]
  by_cases hm : s.map replaceInvalid = []
  · rw [hm]
    exact ⟨"unnamed".data, rfl⟩
  · rw [if_neg hm]
    by_cases ht : trimMatchesBy isDotOrSpace (s.map replaceInvalid) = []
    · rw [if_pos ht]
      exact ⟨"unnamed".data, rfl⟩
    · rw [if_neg ht]
      refine rustTruncate_ascii _ 255 ?_
      intro c hc
      have hlt : c.toNat < 128 := hmap c (trimMatchesBy_subset _ _ c hc)
      unfold utf8Size
      rw [if_pos hlt]

theorem mapMSanitize_isSome (l : List Str)
    (h : ∀ s ∈ l, ∃ t, sanitize_filename s = some t) :
    ∃ r, mapMSanitize l = some r := by
  induction l with
  | nil => exact ⟨[], rfl⟩
  | cons a t ih =>
    obtain ⟨b, hb⟩ := h a (List.mem_cons_self a t)
    obtain ⟨r, hr⟩ := ih (fun s hs => h s (List.mem_cons_of_mem a hs))
    refine ⟨b :: r, ?_⟩
    simp only [mapMSanitize]
    rw [hb, hr]

theorem pathChar_ascii (c : Char) (h : isPathChar c = true) : c.toNat < 128 := by
  simp only [isPathChar, isAsciiUpper, isAsciiLower, isAsciiDigit, Bool.or_eq_true,
    Bool.and_eq_true, decide_eq_true_eq] at h
  omega

/-- Claim C4, amended: the mapper is deterministic and, for every location
that parses as a URL, total — it returns `Ok` with some destination — but
it is not free of filesystem effects: outside the root-path case it itself
creates the destination's parent directory with `create_dir_all`. -/
theorem get_local_file_path_total (url : Str) (base_dir : List Str) (u : Url)
    (h : Url.parse url = some u) :
    ∃ dest, get_local_file_path url base_dir = some (.ok dest, [])
      ∨ get_local_file_path url base_dir
          = some (.ok dest, [FsOp.createDirAll dest.dropLast]) := by
  have hwf := wf_parse url u h
  simp only [Url.wf, Bool.and_eq_true] at hwf
  have hpc : u.path.all isPathChar = true := hwf.1.1.2
  have hcleanall : (if startsWithChar '/' u.path then u.path.drop 1
      else u.path).all isPathChar = true := by
    by_cases hsw : startsWithChar '/' u.path = true
    · rw [if_pos hsw]
      rw [List.all_eq_true]
      intro c hc
      exact (List.all_eq_true.1 hpc) c (List.drop_subset 1 u.path hc)
    · rw [if_neg hsw]
      exact hpc
  have hsegs : ∀ s ∈ ((splitChar '/' (if startsWithChar '/' u.path
        then u.path.drop 1 else u.path)).filter (fun c => !c.isEmpty)),
      ∃ t, sanitize_filename s = some t := by
    intro s hs
    have hmem := (List.mem_filter.1 hs).1
    have hall := splitChar_mem_all isPathChar '/' _ hcleanall s hmem
    refine sanitize_filename_ascii_isSome s ?_
    intro c hc
    exact pathChar_ascii c ((List.all_eq_true.1 hall) c hc)
  obtain ⟨pcs, hpcs⟩ := mapMSanitize_isSome _ hsegs
  simp only [get_local_file_path]
  rw [h]
  dsimp only
  by_cases hroot : (if startsWithChar '/' u.path then u.path.drop 1 else u.path) = []
      ∨ (if startsWithChar '/' u.path then u.path.drop 1 else u.path) = ['/']
  · rw [if_pos hroot]
    exact ⟨base_dir ++ ["index.html".data], Or.inl rfl⟩
  · rw [if_neg hroot, hpcs]
    exact ⟨base_dir ++ pcs, Or.inr rfl⟩

/-- Witness for `get_local_file_path_total` at a concrete URL. -/
theorem get_local_file_path_total_witness :
    ∃ dest, get_local_file_path "https://x.test/docs/a.md".data ["out".data]
        = some (.ok dest, [])
      ∨ get_local_file_path "https://x.test/docs/a.md".data ["out".data]
          = some (.ok dest, [FsOp.createDirAll dest.dropLast]) :=
  get_local_file_path_total "https://x.test/docs/a.md".data ["out".data]
    ⟨"https".data, some "x.test".data, none, "/docs/a.md".data, none, none⟩ (by rfl)

/-- Claim C2, amended: for a response status that is neither 2xx nor 404,
both client loops return `HttpError{status}` (or `FileNotFound` for 404)
immediately exactly when the status is 4xx; every other such status —
1xx, 3xx and 5xx alike — consumes a retry attempt and the loop continues
with the remaining transport answers. -/
theorem fetch_status_classification (status : Nat) (url body : Str)
    (localPath : List Str) (rest : List HttpAttempt) (last : Option DownloadError)
    (hs : ¬(200 ≤ status ∧ status ≤ 299)) :
    ((400 ≤ status ∧ status ≤ 499) →
      fetchContentGo url (HttpAttempt.response status true body :: rest) last
        = (Except.error (classifyStatusError status url), 1)
      ∧ download_file_go url localPath (HttpAttempt.response status true body :: rest) last
        = (Except.error (classifyStatusError status url), 1, []))
    ∧ (¬(400 ≤ status ∧ status ≤ 499) →
      fetchContentGo url (HttpAttempt.response status true body :: rest) last
        = ((fetchContentGo url rest (some (classifyStatusError status url))).1,
           (fetchContentGo url rest (some (classifyStatusError status url))).2 + 1)
      ∧ download_file_go url localPath (HttpAttempt.response status true body :: rest) last
        = ((download_file_go url localPath rest (some (classifyStatusError status url))).1,
           (download_file_go url localPath rest
              (some (classifyStatusError status url))).2.1 + 1,
           (download_file_go url localPath rest
              (some (classifyStatusError status url))).2.2)) := by
  have hsF : statusIsSuccess status = false := by
    cases hbv : statusIsSuccess status
    · rfl
    · exfalso
      simp only [statusIsSuccess, Bool.and_eq_true, decide_eq_true_eq] at hbv
      exact hs hbv
  constructor
  · intro h4
    have hcT : statusIsClientError status = true := by
      simp only [statusIsClientError, Bool.and_eq_true, decide_eq_true_eq]
      exact h4
    constructor
    · simp [fetchContentGo, hsF, hcT]
    · simp [download_file_go, hsF, hcT]
  · intro h4
    have hcF : statusIsClientError status = false := by
      cases hbv : statusIsClientError status
      · rfl
      · exfalso
        simp only [statusIsClientError, Bool.and_eq_true, decide_eq_true_eq] at hbv
        exact h4 hbv
    constructor
    · simp [fetchContentGo, hsF, hcF]
    · simp [download_file_go, hsF, hcF]

/-- Witness for `fetch_status_classification` at status 301. -/
theorem fetch_status_classification_witness :
    fetchContentGo "u".data [HttpAttempt.response 301 true []] none
      = ((fetchContentGo "u".data [] (some (classifyStatusError 301 "u".data))).1,
         (fetchContentGo "u".data [] (some (classifyStatusError 301 "u".data))).2 + 1) :=
  ((fetch_status_classification 301 "u".data [] ["f".data] [] none (by decide)).2
    (by decide)).1
